import Mathlib

/-!
Shallow embedding of the docmerger repository's merge core.

The embedded code is `src/docmerger.py` (the primary merge driver):
  * `load_processed_files` / `update_processed_file` — the CSV ledger
    (`processed.csv`), modelled as an optional list of rows, each row a list
    of string fields (`none` = the file does not exist on disk).
  * `merge_docx_files` — one merge pass: list the input folder, sort
    lexicographically, skip non-`.docx` names and names already in the
    loaded ledger dict, then per file: parse (`Document(path)`, which can
    raise), insert a page break iff the in-memory merged document already
    has a paragraph, splice the sub-document's body elements, save, and
    append a `success` row; any exception in the `try` block instead
    appends an `error` row and the loop continues.

A docx body is a list of `Block`s.  `python-docx`'s `Document()` created
from the default template has no paragraphs, so a fresh artifact is `[]`.
`add_page_break` appends a paragraph containing a page break; the `sep`
constructor represents that separator paragraph, so it counts as a
paragraph for the `merged_document.paragraphs` test.

The environment is explicit: an input file carries its parse result
(`none` models `Document(file_path)` raising), and `saveOK : String → Bool`
says whether `merged_document.save(output_path)` succeeds while the given
filename is being processed (an I/O failure raises inside the same `try`).
A failed save is modelled as leaving the on-disk artifact unchanged.

The pass also emits an event trace (pass start/end log lines, completed
saves, ledger appends) used to state ordering properties.
-/

namespace DocMerger

/-- Python `s.endswith(suf)` on code-point sequences. -/
def endsWithB (s suf : List Char) : Bool :=
  if suf.length ≤ s.length then decide (s.drop (s.length - suf.length) = suf) else false

/-- Python `str.lower()` on one character (ASCII range, which covers the
filenames the dashboard accepts). -/
def lowerChar (c : Char) : Char :=
  if 65 ≤ c.toNat ∧ c.toNat ≤ 90 then Char.ofNat (c.toNat + 32) else c

/-- Python string comparison: lexicographic on code points. -/
def lexLe : List Char → List Char → Bool
  | [], _ => true
  | _ :: _, [] => false
  | a :: as, b :: bs =>
    if a.toNat < b.toNat then true
    else if b.toNat < a.toNat then false
    else lexLe as bs

/-- A top-level element of a docx body: a plain paragraph, a table (not a
paragraph), or the separator paragraph produced by `add_page_break`. -/
inductive Block where
  | para (text : String)
  | table (label : String)
  | sep
deriving DecidableEq, Repr

/-- Whether a body element is a `w:p` element (member of `document.paragraphs`).
The page-break separator is itself a paragraph; a table is not. -/
def Block.isParagraph : Block → Bool
  | .para _ => true
  | .table _ => false
  | .sep => true

/-- Python `bool(merged_document.paragraphs)`: the body holds at least one paragraph. -/
def hasParagraph (doc : List Block) : Bool :=
  doc.any Block.isParagraph

/-- A file of the input folder: its name and the result of
`Document(file_path)` (`none` = parsing raises). -/
structure InputFile where
  name : String
  parse : Option (List Block)
deriving DecidableEq, Repr

/-- Python dict insertion: overwrite the bound value in place, else append. -/
def upsert : List (String × String) → String → String → List (String × String)
  | [], k, v => [(k, v)]
  | (k', v') :: rest, k, v =>
      if k' = k then (k, v) :: rest else (k', v') :: upsert rest k v

/-- Association-list lookup on the loaded dict (`filename in processed` /
`processed[filename]`). -/
def lookupName : List (String × String) → String → Option String
  | [], _ => none
  | (k, v) :: rest, n => if k = n then some v else lookupName rest n

/-- The loop body of `load_processed_files`: rows with exactly two fields
are inserted into the dict, others are skipped. -/
def loadRows (rows : List (List String)) : List (String × String) :=
  rows.foldl
    (fun acc row =>
      match row with
      | [a, b] => upsert acc a b
      | _ => acc) []

/-- Function `load_processed_files` (docmerger.py lines 36-45): missing file gives an
empty dict, otherwise fold the CSV rows. -/
def load_processed_files : Option (List (List String)) → List (String × String)
  | none => []
  | some rows => loadRows rows

/-- Function `update_processed_file` (docmerger.py lines 48-52): append one
`[filename, status]` row, creating the file when missing. -/
def update_processed_file (rows? : Option (List (List String)))
    (filename status : String) : Option (List (List String)) :=
  some (rows?.getD [] ++ [[filename, status]])

/-- Observable events of a pass: the start/end log lines, a completed
`merged_document.save` (with the saved body), and a ledger append. -/
inductive Event where
  | passStart
  | passEnd
  | persist (doc : List Block)
  | record (name status : String)
deriving DecidableEq, Repr

/-- Mutable state of the merge loop: the in-memory merged document, the
on-disk artifact, the on-disk ledger, and the events emitted so far. -/
structure PassState where
  mem : List Block
  disk : Option (List Block)
  rows : Option (List (List String))
  events : List Event
deriving DecidableEq, Repr

/-- One iteration of the `for filename in sorted(os.listdir(...))` body
(docmerger.py lines 79-108): skip non-`.docx` names, skip names in the
loaded dict, otherwise parse / page-break / splice / save / record, with
the per-file `try`/`except` turning any failure into an `error` row. -/
def stepFile (saveOK : String → Bool) (processed : List (String × String))
    (acc : PassState) (f : InputFile) : PassState :=
  if ¬ endsWithB f.name.data ".docx".data then acc
  else if (lookupName processed f.name).isSome then acc
  else
    match f.parse with
    | none =>
        { acc with
            rows := update_processed_file acc.rows f.name "error"
            events := acc.events ++ [Event.record f.name "error"] }
    | some blocks =>
        let doc0 := if hasParagraph acc.mem then acc.mem ++ [Block.sep] else acc.mem
        let doc := doc0 ++ blocks
        if saveOK f.name then
          { mem := doc
            disk := some doc
            rows := update_processed_file acc.rows f.name "success"
            events := acc.events ++ [Event.persist doc, Event.record f.name "success"] }
        else
          { acc with
              mem := doc
              rows := update_processed_file acc.rows f.name "error"
              events := acc.events ++ [Event.record f.name "error"] }

/-- Run the loop body over the sorted candidate list. -/
def runFiles (saveOK : String → Bool) (processed : List (String × String)) :
    PassState → List InputFile → PassState
  | acc, [] => acc
  | acc, f :: rest => runFiles saveOK processed (stepFile saveOK processed acc f) rest

/-- Stable insertion into a name-sorted list (`sorted` is stable and
compares filenames as strings). -/
def insertFile (f : InputFile) : List InputFile → List InputFile
  | [] => [f]
  | g :: rest =>
      if lexLe f.name.data g.name.data then f :: g :: rest else g :: insertFile f rest

/-- Python `sorted(os.listdir(INPUT_FOLDER))`: lexicographic sort by filename. -/
def sortFiles : List InputFile → List InputFile
  | [] => []
  | f :: rest => insertFile f (sortFiles rest)

/-- Durable state between passes: the ledger file and the artifact file
(`none` = the file does not exist). -/
structure MergeState where
  ledger : Option (List (List String))
  artifact : Option (List Block)
deriving DecidableEq, Repr

/-- Function `merge_docx_files` (docmerger.py lines 55-110): load the ledger once,
open the artifact if present else start an empty document, loop over the
sorted listing, and return the resulting durable state with the pass's
event trace. -/
def merge_docx_files (saveOK : String → Bool) (st : MergeState)
    (dir : List InputFile) : MergeState × List Event :=
  let processed := load_processed_files st.ledger
  let mem0 := st.artifact.getD []
  let fin := runFiles saveOK processed ⟨mem0, st.artifact, st.ledger, []⟩ (sortFiles dir)
  (⟨fin.rows, fin.disk⟩, Event.passStart :: fin.events ++ [Event.passEnd])

/-- The dashboard upload filter (webui/main.py lines 136-138):
`name.lower().endswith(".docx")`. -/
def upload_accepts (name : String) : Bool :=
  endsWithB (name.data.map lowerChar) ".docx".data

/-- Every filename's save succeeds (no I/O failures). -/
def allSavesOK : String → Bool := fun _ => true

/-- Fresh deployment: no ledger file, no artifact file. -/
def emptyState : MergeState := ⟨none, none⟩

/-- Block sequences joined by single separators: no separator before the
first sequence, one between each consecutive pair. -/
def sepJoin : List (List Block) → List Block
  | [] => []
  | [bs] => bs
  | bs :: rest => bs ++ Block.sep :: sepJoin rest

/-- A well-formed candidate: `.docx` name, parses, and its body holds at
least one paragraph. -/
def goodInput (f : InputFile) : Bool :=
  endsWithB f.name.data ".docx".data &&
    match f.parse with
    | some bs => hasParagraph bs
    | none => false

/-- The last event of `t`, or `prev` when `t` is empty. -/
def lastEvent (prev : Option Event) : List Event → Option Event
  | [] => prev
  | e :: rest => lastEvent (some e) rest

/-- Scan a trace knowing the event just before it: every `success` ledger
append must immediately follow a completed save. -/
def successAfterPersist (prev : Option Event) : List Event → Bool
  | [] => true
  | e :: rest =>
      (match e, prev with
       | Event.record _ "success", some (Event.persist _) => true
       | Event.record _ "success", _ => false
       | _, _ => true) && successAfterPersist (some e) rest

/-- Spec reading of the load contract: among the rows that consist of
exactly a filename and an outcome, the outcome bound to `n` is the one of
the last row naming `n` (malformed rows are skipped, last entry wins). -/
def lastBinding (n : String) (rows : List (List String)) : Option String :=
  (rows.filterMap
    (fun row =>
      match row with
      | [a, b] => if a = n then some b else none
      | _ => none)).getLast?

/-- Name-sorted candidate lists. -/
abbrev sortedByName (l : List InputFile) : Prop :=
  List.Pairwise (fun f g => lexLe f.name.data g.name.data = true) l

/-! ## Ledger lemmas -/

theorem lookupName_upsert (m : List (String × String)) (a b n : String) :
    lookupName (upsert m a b) n = if a = n then some b else lookupName m n := by
  induction m with
  | nil => simp [upsert, lookupName]
  | cons kv m ih =>
      obtain ⟨k, v⟩ := kv
      by_cases hka : k = a
      · subst hka
        simp only [upsert, if_pos rfl, lookupName]
        by_cases hkn : k = n <;> simp [hkn, lookupName]
      · simp only [upsert, if_neg hka, lookupName]
        by_cases hkn : k = n
        · subst hkn
          have han : a ≠ k := fun h => hka h.symm
          simp [han]
        · simp [hkn, ih]

theorem lookup_loadRows (rows : List (List String)) (n : String) :
    lookupName (loadRows rows) n = lastBinding n rows := by
  induction rows using List.reverseRecOn with
  | nil => rfl
  | append_singleton r row ih =>
      have hload : loadRows (r ++ [row]) =
          (match row with
           | [a, b] => upsert (loadRows r) a b
           | _ => loadRows r) := by
        simp [loadRows, List.foldl_append]
      match row with
      | [] =>
          simp [hload, lastBinding, List.filterMap_append, ih]
      | [a] =>
          simp [hload, lastBinding, List.filterMap_append, ih]
      | a :: b :: c :: t =>
          simp [hload, lastBinding, List.filterMap_append, ih]
      | [a, b] =>
          rw [hload]
          simp only [lookupName_upsert, ih, lastBinding, List.filterMap_append,
            List.getLast?_append]
          by_cases han : a = n <;> simp [han, lastBinding]

/-!  ## Claim theorems (computational) -/

/-- C9: the ledger load contract.  A missing `processed.csv` loads as the
empty mapping, and for any row list and filename the loaded dict binds the
filename to the outcome of the last well-formed (exactly two column) row
naming it; in particular malformed rows are skipped without failing the
load, and duplicate filenames resolve last-entry-wins. -/
theorem ledger_load_contract :
    load_processed_files none = [] ∧
    ∀ rows n, lookupName (load_processed_files (some rows)) n = lastBinding n rows :=
  ⟨rfl, fun rows n => lookup_loadRows rows n⟩

/-- C2: the crash window duplicates content.  From the state where the
artifact already holds a.docx's paragraph (its `save` completed) but the
ledger was never written (crash before `update_processed_file`), the next
pass re-processes a.docx and appends its content a second time, so the
claimed "must not append A's content a second time" fails on the code. -/
theorem crash_window_duplicates_content :
    (merge_docx_files allSavesOK ⟨none, some [Block.para "A"]⟩
        [⟨"a.docx", some [Block.para "A"]⟩]).1
      = ⟨some [["a.docx", "success"]],
         some [Block.para "A", Block.sep, Block.para "A"]⟩ := by decide

/-- C3: no reload after a per-file failure.  When a.docx's `save` raises,
the driver records the error and keeps the mutated in-memory document, so
b.docx's successful merge persists a.docx's blocks as well: the artifact
ends as `[A, sep, B]` while a.docx is recorded `error` — the claimed
reload-from-disk-on-failure policy is absent from the code. -/
theorem failed_save_content_persisted_by_next_file :
    merge_docx_files (fun n => n != "a.docx") emptyState
        [⟨"a.docx", some [Block.para "A"]⟩, ⟨"b.docx", some [Block.para "B"]⟩]
      = (⟨some [["a.docx", "error"], ["b.docx", "success"]],
          some [Block.para "A", Block.sep, Block.para "B"]⟩,
         [Event.passStart, Event.record "a.docx" "error",
          Event.persist [Block.para "A", Block.sep, Block.para "B"],
          Event.record "b.docx" "success", Event.passEnd]) := by decide

/-- C4 counterexample: the separator test is `merged_document.paragraphs`,
so after a first file containing only a table (no paragraph) the second
file's content is appended with no separator at all: both files merge
successfully yet no page break separates their contents. -/
theorem separator_counterexample :
    (merge_docx_files allSavesOK emptyState
        [⟨"a.docx", some [Block.table "t"]⟩, ⟨"b.docx", some [Block.para "x"]⟩]).1
      = ⟨some [["a.docx", "success"], ["b.docx", "success"]],
         some [Block.table "t", Block.para "x"]⟩ ∧
    Block.sep ∉ [Block.table "t", Block.para "x"] := by decide

/-! ## Trace lemmas: a `success` row only right after a completed save -/

theorem successAfterPersist_append (t1 t2 : List Event) (prev : Option Event) :
    successAfterPersist prev (t1 ++ t2)
      = (successAfterPersist prev t1 && successAfterPersist (lastEvent prev t1) t2) := by
  induction t1 generalizing prev with
  | nil => simp [successAfterPersist, lastEvent]
  | cons e t1 ih => simp [successAfterPersist, lastEvent, ih, Bool.and_assoc]

theorem sAP_error_chunk (prev : Option Event) (n : String) :
    successAfterPersist prev [Event.record n "error"] = true := by
  rcases prev with _ | e
  · simp [successAfterPersist]
  · cases e <;> simp [successAfterPersist]

theorem sAP_success_chunk (prev : Option Event) (n : String) (d : List Block) :
    successAfterPersist prev [Event.persist d, Event.record n "success"] = true := by
  rcases prev with _ | e
  · simp [successAfterPersist]
  · cases e <;> simp [successAfterPersist]

theorem sAP_passEnd_chunk (prev : Option Event) :
    successAfterPersist prev [Event.passEnd] = true := by
  rcases prev with _ | e
  · simp [successAfterPersist]
  · cases e <;> simp [successAfterPersist]

theorem runFiles_trace_lockstep (sOK : String → Bool) (p : List (String × String)) :
    ∀ (l : List InputFile) (acc : PassState) (prev : Option Event),
      successAfterPersist prev acc.events = true →
      successAfterPersist prev (runFiles sOK p acc l).events = true := by
  intro l
  induction l with
  | nil => intro acc prev h; exact h
  | cons f rest ih =>
      intro acc prev h
      refine ih (stepFile sOK p acc f) prev ?_
      by_cases h1 : endsWithB f.name.data ".docx".data = true
      · by_cases h2 : (lookupName p f.name).isSome = true
        · simp [stepFile, h1, h2, h]
        · rcases hp : f.parse with _ | blocks
          · simp [stepFile, h1, h2, hp, successAfterPersist_append, h, sAP_error_chunk]
          · by_cases h3 : sOK f.name = true
            · simp [stepFile, h1, h2, hp, h3, successAfterPersist_append, h,
                sAP_success_chunk]
            · simp [stepFile, h1, h2, hp, h3, successAfterPersist_append, h,
                sAP_error_chunk]
      · simp [stepFile, h1, h]

/-- C5: ledger/artifact lockstep.  In every pass trace — any prior state,
any input listing, any save-failure pattern — a `success` ledger append
occurs only immediately after the completed save of that file's merge, so
the artifact is persisted per file and no state marks a filename `success`
before its persist finished. -/
theorem success_recorded_only_after_persist (sOK : String → Bool) (st : MergeState)
    (dir : List InputFile) :
    successAfterPersist none (merge_docx_files sOK st dir).2 = true := by
  show successAfterPersist none
    (Event.passStart ::
      (runFiles sOK (load_processed_files st.ledger)
          ⟨st.artifact.getD [], st.artifact, st.ledger, []⟩ (sortFiles dir)).events
        ++ [Event.passEnd]) = true
  rw [show ∀ (x : List Event) (y : List Event), Event.passStart :: x ++ y
        = [Event.passStart] ++ (x ++ y) from fun _ _ => rfl]
  rw [successAfterPersist_append, successAfterPersist_append]
  have h1 : successAfterPersist none [Event.passStart] = true := by
    simp [successAfterPersist]
  have h2 := runFiles_trace_lockstep sOK (load_processed_files st.ledger)
    (sortFiles dir) ⟨st.artifact.getD [], st.artifact, st.ledger, []⟩
    (lastEvent none [Event.passStart]) (by simp [successAfterPersist])
  simp [h1, h2, sAP_passEnd_chunk]

/-! ## Sorting lemmas -/

theorem lexLe_total (a : List Char) : ∀ b, lexLe a b = true ∨ lexLe b a = true := by
  induction a with
  | nil => intro b; left; rfl
  | cons x as ih =>
      intro b
      cases b with
      | nil => right; rfl
      | cons y bs =>
          by_cases h1 : x.toNat < y.toNat
          · left; simp [lexLe, h1]
          · by_cases h2 : y.toNat < x.toNat
            · right; simp [lexLe, h2]
            · rcases ih bs with h | h
              · left; simp [lexLe, h1, h2, h]
              · right; simp [lexLe, h1, h2, h]

theorem lexLe_of_not_lexLe {a b : List Char} (h : lexLe a b = false) :
    lexLe b a = true := by
  rcases lexLe_total a b with h' | h'
  · rw [h'] at h; cases h
  · exact h'

theorem lexLe_trans (a : List Char) :
    ∀ b c, lexLe a b = true → lexLe b c = true → lexLe a c = true := by
  induction a with
  | nil => intro b c _ _; rfl
  | cons x as ih =>
      intro b c hab hbc
      cases b with
      | nil => simp [lexLe] at hab
      | cons y bs =>
          cases c with
          | nil => simp [lexLe] at hbc
          | cons z cs =>
              simp only [lexLe] at hab hbc ⊢
              split_ifs at hab hbc ⊢ with h1 h2 h3 h4 h5 h6 <;>
                first
                | rfl
                | exact ih bs cs hab hbc
                | exact (Bool.false_ne_true hab).elim
                | exact (Bool.false_ne_true hbc).elim
                | (exfalso; omega)

theorem mem_insertFile {g f : InputFile} : ∀ {l : List InputFile},
    g ∈ insertFile f l ↔ g = f ∨ g ∈ l := by
  intro l
  induction l with
  | nil => simp [insertFile]
  | cons x rest ih =>
      by_cases h : lexLe f.name.data x.name.data = true
      · simp [insertFile, h]
      · simp only [insertFile, if_neg h, List.mem_cons, ih]
        tauto

theorem mem_sortFiles {g : InputFile} : ∀ {l : List InputFile},
    g ∈ sortFiles l ↔ g ∈ l := by
  intro l
  induction l with
  | nil => simp [sortFiles]
  | cons x rest ih => simp [sortFiles, mem_insertFile, ih]

theorem insertFile_sorted {f : InputFile} : ∀ {l : List InputFile},
    sortedByName l → sortedByName (insertFile f l) := by
  intro l
  induction l with
  | nil => intro _; simp [insertFile, sortedByName]
  | cons x rest ih =>
      intro hs
      have hx : ∀ g ∈ rest, lexLe x.name.data g.name.data = true :=
        fun g hg => List.rel_of_pairwise_cons hs hg
      have hrest : sortedByName rest := hs.of_cons
      by_cases h : lexLe f.name.data x.name.data = true
      · rw [insertFile, if_pos h]
        refine List.Pairwise.cons ?_ hs
        intro g hg
        rcases List.mem_cons.mp hg with rfl | hg'
        · exact h
        · exact lexLe_trans _ _ _ h (hx g hg')
      · rw [insertFile, if_neg h]
        refine List.Pairwise.cons ?_ (ih hrest)
        intro g hg
        rcases mem_insertFile.mp hg with rfl | hg'
        · exact lexLe_of_not_lexLe (Bool.eq_false_iff.mpr h)
        · exact hx g hg'

theorem sortFiles_sorted : ∀ (l : List InputFile), sortedByName (sortFiles l) := by
  intro l
  induction l with
  | nil => exact List.Pairwise.nil
  | cons x rest ih => exact insertFile_sorted ih

theorem insertFile_head {f : InputFile} : ∀ {l : List InputFile},
    (∀ x ∈ l, lexLe f.name.data x.name.data = true) → insertFile f l = f :: l := by
  intro l h
  cases l with
  | nil => rfl
  | cons x rest => simp [insertFile, h x (List.mem_cons_self x rest)]

theorem insertFile_filter (q : InputFile → Bool) (f : InputFile) :
    ∀ (l : List InputFile), sortedByName l →
      (insertFile f l).filter q
        = if q f then insertFile f (l.filter q) else l.filter q := by
  intro l
  induction l with
  | nil =>
      intro _
      by_cases hq : q f <;> simp [insertFile, List.filter, hq]
  | cons g rest ih =>
      intro hs
      have hg : ∀ x ∈ rest, lexLe g.name.data x.name.data = true :=
        fun x hx => List.rel_of_pairwise_cons hs hx
      have hrest : sortedByName rest := hs.of_cons
      by_cases hfg : lexLe f.name.data g.name.data = true
      · rw [insertFile, if_pos hfg]
        have hhead : insertFile f ((g :: rest).filter q) = f :: (g :: rest).filter q := by
          apply insertFile_head
          intro x hx
          rcases List.mem_cons.mp (List.mem_of_mem_filter hx) with rfl | hx'
          · exact hfg
          · exact lexLe_trans _ _ _ hfg (hg x hx')
        by_cases hq : q f
        · rw [if_pos hq, hhead]
          simp [List.filter_cons, hq]
        · rw [if_neg hq]
          simp [List.filter_cons, Bool.eq_false_iff.mpr hq]
      · rw [insertFile, if_neg hfg]
        by_cases hqg : q g
        · rw [List.filter_cons_of_pos hqg, ih hrest]
          by_cases hq : q f
          · rw [if_pos hq, if_pos hq, List.filter_cons_of_pos hqg, insertFile, if_neg hfg]
          · rw [if_neg hq, if_neg hq, List.filter_cons_of_pos hqg]
        · have hqg' : q g = false := Bool.eq_false_iff.mpr hqg
          rw [List.filter_cons_of_neg (by simp [hqg']), ih hrest,
            List.filter_cons_of_neg (by simp [hqg'])]

theorem sortFiles_filter (q : InputFile → Bool) :
    ∀ (l : List InputFile), (sortFiles l).filter q = sortFiles (l.filter q) := by
  intro l
  induction l with
  | nil => rfl
  | cons f rest ih =>
      show (insertFile f (sortFiles rest)).filter q = sortFiles ((f :: rest).filter q)
      rw [insertFile_filter q f (sortFiles rest) (sortFiles_sorted rest), ih]
      by_cases hq : q f <;> simp [List.filter, hq, sortFiles]

theorem runFiles_filter (sOK : String → Bool) (p : List (String × String))
    (q : InputFile → Bool)
    (hskip : ∀ f, q f = false → ∀ acc, stepFile sOK p acc f = acc) :
    ∀ (l : List InputFile) (acc : PassState),
      runFiles sOK p acc l = runFiles sOK p acc (l.filter q) := by
  intro l
  induction l with
  | nil => intro acc; rfl
  | cons f rest ih =>
      intro acc
      by_cases hq : q f
      · simp only [List.filter, hq]
        show runFiles sOK p (stepFile sOK p acc f) rest
            = runFiles sOK p (stepFile sOK p acc f) (rest.filter q)
        exact ih _
      · have hq' : q f = false := Bool.eq_false_iff.mpr hq
        simp only [List.filter, hq']
        show runFiles sOK p (stepFile sOK p acc f) rest = runFiles sOK p acc (rest.filter q)
        rw [hskip f hq' acc]
        exact ih acc

/-! ## C1 and C10: files filtered out before any per-file work -/

/-- C1: at-most-once processing.  If a filename `F` is present in the
loaded ledger mapping (whatever its outcome), a pass over any listing is
identical — resulting ledger, artifact, and full event trace — to the same
pass with every file named `F` removed from the listing: the file is
skipped before any extract/append/persist and nothing is done on its
behalf. -/
theorem ledgered_file_never_reattempted (sOK : String → Bool) (st : MergeState)
    (dir : List InputFile) (F : String)
    (h : (lookupName (load_processed_files st.ledger) F).isSome = true) :
    merge_docx_files sOK st dir
      = merge_docx_files sOK st (dir.filter (fun f => f.name != F)) := by
  have hskip : ∀ f, (fun f => f.name != F) f = false →
      ∀ acc, stepFile sOK (load_processed_files st.ledger) acc f = acc := by
    intro f hf acc
    have hname : f.name = F := by simpa using hf
    by_cases he : endsWithB f.name.data ".docx".data = true
    · simp only [stepFile]
      rw [if_neg (by simp [he]), if_pos (by rw [hname]; exact h)]
    · simp only [stepFile]
      rw [if_pos (by simp [he])]
  simp only [merge_docx_files]
  rw [← sortFiles_filter, ← runFiles_filter sOK _ _ hskip (sortFiles dir)]

/-- Witness for C1 at a concrete input: a.docx is recorded `success` in
the ledger, and the pass over a listing containing a.docx and b.docx
equals the pass over the listing with a.docx removed. -/
theorem ledgered_file_never_reattempted_witness :
    (lookupName (load_processed_files (some [["a.docx", "success"]])) "a.docx").isSome
        = true ∧
    merge_docx_files allSavesOK ⟨some [["a.docx", "success"]], some [Block.para "A"]⟩
        [⟨"a.docx", some [Block.para "A"]⟩, ⟨"b.docx", some [Block.para "B"]⟩]
      = merge_docx_files allSavesOK ⟨some [["a.docx", "success"]], some [Block.para "A"]⟩
          ([⟨"a.docx", some [Block.para "A"]⟩, ⟨"b.docx", some [Block.para "B"]⟩].filter
            (fun f => f.name != "a.docx")) :=
  ⟨by decide, ledgered_file_never_reattempted allSavesOK _ _ "a.docx" (by decide)⟩

/-- C10: the merge driver's extension filter is case-sensitive.  A pass
is identical to the pass over the listing restricted to names ending in
the exact lowercase `".docx"` — files like `REPORT.DOCX` are never
extracted, appended, or ledgered — while the dashboard upload check
(`name.lower().endswith(".docx")`) does accept `REPORT.DOCX`, whose name
fails the driver's suffix test. -/
theorem extension_filter_case_sensitive :
    (∀ (sOK : String → Bool) (st : MergeState) (dir : List InputFile),
        merge_docx_files sOK st dir
          = merge_docx_files sOK st
              (dir.filter (fun f => endsWithB f.name.data ".docx".data))) ∧
    upload_accepts "REPORT.DOCX" = true ∧
    endsWithB "REPORT.DOCX".data ".docx".data = false := by
  refine ⟨?_, by decide, by decide⟩
  intro sOK st dir
  have hskip : ∀ f, (fun f => endsWithB f.name.data ".docx".data) f = false →
      ∀ acc, stepFile sOK (load_processed_files st.ledger) acc f = acc := by
    intro f hf acc
    simp only [stepFile]
    rw [if_pos (by simp [hf])]
  simp only [merge_docx_files]
  rw [← sortFiles_filter, ← runFiles_filter sOK _ _ hskip (sortFiles dir)]

/-! ## Per-file step lemmas and the all-successful run -/

theorem hasParagraph_append (xs ys : List Block) :
    hasParagraph (xs ++ ys) = (hasParagraph xs || hasParagraph ys) := by
  simp [hasParagraph]

theorem hasParagraph_sep_cons (l : List Block) :
    hasParagraph (Block.sep :: l) = true := by
  simp [hasParagraph, Block.isParagraph]

theorem stepFile_skip_ledgered (sOK : String → Bool) (p : List (String × String))
    (acc : PassState) (f : InputFile)
    (h : (lookupName p f.name).isSome = true) :
    stepFile sOK p acc f = acc := by
  by_cases he : endsWithB f.name.data ".docx".data = true
  · simp only [stepFile]
    rw [if_neg (by simp [he]), if_pos h]
  · simp only [stepFile]
    rw [if_pos (by simp [he])]

theorem stepFile_parse_error (sOK : String → Bool) (p : List (String × String))
    (acc : PassState) (f : InputFile)
    (hext : endsWithB f.name.data ".docx".data = true)
    (hlk : lookupName p f.name = none)
    (hbs : f.parse = none) :
    stepFile sOK p acc f =
      { acc with
          rows := update_processed_file acc.rows f.name "error"
          events := acc.events ++ [Event.record f.name "error"] } := by
  simp only [stepFile]
  rw [if_neg (by simp [hext]), if_neg (by simp [hlk]), hbs]

theorem stepFile_success_sep (sOK : String → Bool) (p : List (String × String))
    (acc : PassState) (f : InputFile) (bs : List Block)
    (hext : endsWithB f.name.data ".docx".data = true)
    (hlk : lookupName p f.name = none)
    (hbs : f.parse = some bs)
    (hsave : sOK f.name = true)
    (hpar : hasParagraph acc.mem = true) :
    stepFile sOK p acc f =
      ⟨acc.mem ++ Block.sep :: bs, some (acc.mem ++ Block.sep :: bs),
       update_processed_file acc.rows f.name "success",
       acc.events ++ [Event.persist (acc.mem ++ Block.sep :: bs),
         Event.record f.name "success"]⟩ := by
  simp only [stepFile]
  rw [if_neg (by simp [hext]), if_neg (by simp [hlk]), hbs]
  simp only [hpar, if_true, hsave]
  simp [List.append_assoc]

theorem stepFile_success_nosep (sOK : String → Bool) (p : List (String × String))
    (acc : PassState) (f : InputFile) (bs : List Block)
    (hext : endsWithB f.name.data ".docx".data = true)
    (hlk : lookupName p f.name = none)
    (hbs : f.parse = some bs)
    (hsave : sOK f.name = true)
    (hpar : hasParagraph acc.mem = false) :
    stepFile sOK p acc f =
      ⟨acc.mem ++ bs, some (acc.mem ++ bs),
       update_processed_file acc.rows f.name "success",
       acc.events ++ [Event.persist (acc.mem ++ bs),
         Event.record f.name "success"]⟩ := by
  simp only [stepFile]
  rw [if_neg (by simp [hext]), if_neg (by simp [hlk]), hbs]
  simp only [hpar, if_false, hsave]
  simp

theorem sepJoin_cons (bs : List Block) :
    ∀ ls, sepJoin (bs :: ls) = bs ++ (ls.map (fun l => Block.sep :: l)).flatten := by
  intro ls
  induction ls generalizing bs with
  | nil => simp [sepJoin]
  | cons c ls ih => simp [sepJoin, ih c]

theorem goodInput_unpack {f : InputFile} (h : goodInput f = true) :
    endsWithB f.name.data ".docx".data = true ∧
      ∃ bs, f.parse = some bs ∧ hasParagraph bs = true := by
  rcases hparse : f.parse with _ | bs
  · rw [goodInput, hparse] at h
    simp at h
  · rw [goodInput, hparse] at h
    simp only [Bool.and_eq_true] at h
    exact ⟨h.1, bs, rfl, h.2⟩

theorem runFiles_good (p : List (String × String)) :
    ∀ (l : List InputFile) (acc : PassState),
      (∀ f ∈ l, goodInput f = true ∧ lookupName p f.name = none) →
      hasParagraph acc.mem = true →
      (runFiles allSavesOK p acc l).mem
          = acc.mem ++ (l.map (fun f => Block.sep :: f.parse.getD [])).flatten
        ∧ (runFiles allSavesOK p acc l).disk
          = (if l = [] then acc.disk else some ((runFiles allSavesOK p acc l).mem)) := by
  intro l
  induction l with
  | nil => intro acc _ _; simp [runFiles]
  | cons f rest ih =>
      intro acc hgood hpar
      obtain ⟨hgf, hlf⟩ := hgood f (List.mem_cons_self f rest)
      obtain ⟨hext, bs, hbs, hbspar⟩ := goodInput_unpack hgf
      have hstep := stepFile_success_sep allSavesOK p acc f bs hext hlf hbs rfl hpar
      have hpar' : hasParagraph (stepFile allSavesOK p acc f).mem = true := by
        rw [hstep]
        simp [hasParagraph_append, hasParagraph_sep_cons]
      obtain ⟨hmem, hdisk⟩ := ih (stepFile allSavesOK p acc f)
        (fun g hg => hgood g (List.mem_cons_of_mem f hg)) hpar'
      have hrun : runFiles allSavesOK p acc (f :: rest)
          = runFiles allSavesOK p (stepFile allSavesOK p acc f) rest := rfl
      rw [hrun]
      constructor
      · rw [hmem, hstep]
        simp [hbs, List.append_assoc]
      · cases rest with
        | nil =>
            rw [hdisk]
            show (stepFile allSavesOK p acc f).disk = _
            rw [if_neg (by simp), hmem, hstep]
            simp
        | cons g rest' =>
            rw [hdisk, if_neg (by simp), if_neg (by simp)]

theorem insertFile_ne_nil (f : InputFile) (l : List InputFile) :
    insertFile f l ≠ [] := by
  cases l with
  | nil => simp [insertFile]
  | cons g rest =>
      simp only [insertFile]
      split <;> simp

theorem sortFiles_cons_ne_nil (f : InputFile) (l : List InputFile) :
    sortFiles (f :: l) ≠ [] := by
  show insertFile f (sortFiles l) ≠ []
  exact insertFile_ne_nil f (sortFiles l)

/-- The artifact produced by a pass from a fresh state over well-formed
inputs: the files' bodies in sorted order, joined by single separators. -/
theorem merge_good_artifact (dir : List InputFile)
    (hgood : ∀ f ∈ dir, goodInput f = true) (hne : dir ≠ []) :
    (merge_docx_files allSavesOK emptyState dir).1.artifact
      = some (sepJoin ((sortFiles dir).map (fun f => f.parse.getD []))) := by
  obtain ⟨f, rest, hcons⟩ : ∃ f rest, sortFiles dir = f :: rest := by
    cases hs : sortFiles dir with
    | nil =>
        cases dir with
        | nil => exact absurd rfl hne
        | cons g l => exact absurd hs (sortFiles_cons_ne_nil g l)
    | cons f rest => exact ⟨f, rest, rfl⟩
  have hgood' : ∀ g ∈ sortFiles dir, goodInput g = true :=
    fun g hg => hgood g (mem_sortFiles.mp hg)
  obtain ⟨hext, bs, hbs, hbspar⟩ :=
    goodInput_unpack (hgood' f (by rw [hcons]; exact List.mem_cons_self f rest))
  show (runFiles allSavesOK (load_processed_files none)
      ⟨(none : Option (List Block)).getD [], none, none, []⟩ (sortFiles dir)).disk
    = some (sepJoin ((sortFiles dir).map (fun f => f.parse.getD [])))
  rw [hcons]
  show (runFiles allSavesOK [] (stepFile allSavesOK []
      ⟨[], none, none, []⟩ f) rest).disk = _
  have hstep := stepFile_success_nosep allSavesOK [] ⟨[], none, none, []⟩ f bs
    hext rfl hbs rfl (by simp [hasParagraph])
  obtain ⟨hmem, hdisk⟩ := runFiles_good [] rest
    (stepFile allSavesOK [] ⟨[], none, none, []⟩ f)
    (fun g hg => ⟨hgood' g (by rw [hcons]; exact List.mem_cons_of_mem f hg), rfl⟩)
    (by rw [hstep]; simpa using hbspar)
  cases rest with
  | nil =>
      show (stepFile allSavesOK [] ⟨[], none, none, []⟩ f).disk = _
      rw [hstep]
      simp [sepJoin, hbs]
  | cons g rest' =>
      rw [hdisk, if_neg (by simp), hmem, hstep]
      simp only [List.map_cons]
      rw [sepJoin_cons]
      simp [hbs, List.map_map, Function.comp_def]

/-! ## C4 (amended), C6, C7 -/

theorem goodInput_mk (n : String) (l : List Block)
    (h1 : endsWithB n.data ".docx".data = true) (h2 : hasParagraph l = true) :
    goodInput ⟨n, some l⟩ = true := by
  show (endsWithB n.data ".docx".data && hasParagraph l) = true
  rw [h1, h2]
  rfl

/-- C4 amended: separator placement for files that contain a paragraph.
From a fresh state, a pass over a nonempty listing of well-formed `.docx`
files (each parsing to a body with at least one paragraph) persists
exactly the files' bodies in sorted order joined by single separators: no
separator precedes the first file's content and one page break separates
each consecutive pair.  (The unamended claim — a separator after *every*
file, even a paragraph-less one — is refuted by
`separator_counterexample`.) -/
theorem separator_placement_amended (dir : List InputFile)
    (hgood : ∀ f ∈ dir, goodInput f = true) (hne : dir ≠ []) :
    (merge_docx_files allSavesOK emptyState dir).1.artifact
      = some (sepJoin ((sortFiles dir).map (fun f => f.parse.getD []))) :=
  merge_good_artifact dir hgood hne

/-- Witness for C4 amended: two one-paragraph files merge to
`A ++ [sep] ++ B` with no leading separator. -/
theorem separator_placement_amended_witness :
    (∀ f ∈ ([⟨"a.docx", some [Block.para "A"]⟩,
        ⟨"b.docx", some [Block.para "B"]⟩] : List InputFile), goodInput f = true) ∧
    ([⟨"a.docx", some [Block.para "A"]⟩,
        ⟨"b.docx", some [Block.para "B"]⟩] : List InputFile) ≠ [] ∧
    (merge_docx_files allSavesOK emptyState
        [⟨"a.docx", some [Block.para "A"]⟩, ⟨"b.docx", some [Block.para "B"]⟩]).1.artifact
      = some (sepJoin ((sortFiles [⟨"a.docx", some [Block.para "A"]⟩,
          ⟨"b.docx", some [Block.para "B"]⟩]).map (fun f => f.parse.getD []))) :=
  ⟨by decide, by decide, separator_placement_amended _ (by decide) (by decide)⟩

/-- C6: per-file error isolation.  With a malformed b.docx between
well-formed a.docx and c.docx (a.docx's body containing a paragraph), the
pass completes with a and c merged into the artifact — separated by a
page break — and the ledger recording a `success`, b `error`, c
`success`; b's failure aborts nothing and contributes nothing to the
artifact. -/
theorem malformed_file_isolated (as cs : List Block) (ha : hasParagraph as = true) :
    (merge_docx_files allSavesOK emptyState
        [⟨"a.docx", some as⟩, ⟨"b.docx", none⟩, ⟨"c.docx", some cs⟩]).1
      = ⟨some [["a.docx", "success"], ["b.docx", "error"], ["c.docx", "success"]],
         some (as ++ Block.sep :: cs)⟩ := by
  have hfin : (merge_docx_files allSavesOK emptyState
      [⟨"a.docx", some as⟩, ⟨"b.docx", none⟩, ⟨"c.docx", some cs⟩]).1
      = ⟨(stepFile allSavesOK []
            ⟨as, some as, some [["a.docx", "success"], ["b.docx", "error"]],
             [Event.persist as, Event.record "a.docx" "success",
              Event.record "b.docx" "error"]⟩ ⟨"c.docx", some cs⟩).rows,
         (stepFile allSavesOK []
            ⟨as, some as, some [["a.docx", "success"], ["b.docx", "error"]],
             [Event.persist as, Event.record "a.docx" "success",
              Event.record "b.docx" "error"]⟩ ⟨"c.docx", some cs⟩).disk⟩ := rfl
  have hC := stepFile_success_sep allSavesOK []
    ⟨as, some as, some [["a.docx", "success"], ["b.docx", "error"]],
     [Event.persist as, Event.record "a.docx" "success",
      Event.record "b.docx" "error"]⟩ ⟨"c.docx", some cs⟩ cs rfl rfl rfl rfl ha
  rw [hfin, hC]
  simp [update_processed_file]

/-- Witness for C6 at concrete one-paragraph bodies. -/
theorem malformed_file_isolated_witness :
    hasParagraph [Block.para "A"] = true ∧
    (merge_docx_files allSavesOK emptyState
        [⟨"a.docx", some [Block.para "A"]⟩, ⟨"b.docx", none⟩,
         ⟨"c.docx", some [Block.para "C"]⟩]).1
      = ⟨some [["a.docx", "success"], ["b.docx", "error"], ["c.docx", "success"]],
         some [Block.para "A", Block.sep, Block.para "C"]⟩ :=
  ⟨by decide, malformed_file_isolated [Block.para "A"] [Block.para "C"] (by decide)⟩

/-- C7 counterexample: with a.docx containing only a table, the pass over
a.docx, b.docx, c.docx yields a block sequence with no separator between
a's and b's content, so the claimed grouping
`A ++ sep ++ B ++ sep ++ C` does not hold for arbitrary contents. -/
theorem pass_boundary_counterexample :
    (merge_docx_files allSavesOK emptyState
        [⟨"a.docx", some [Block.table "t"]⟩, ⟨"b.docx", some [Block.para "x"]⟩,
         ⟨"c.docx", some [Block.para "y"]⟩]).1.artifact
      = some [Block.table "t", Block.para "x", Block.sep, Block.para "y"] ∧
    [Block.table "t", Block.para "x", Block.sep, Block.para "y"]
      ≠ [Block.table "t"] ++ Block.sep :: ([Block.para "x"]
          ++ Block.sep :: [Block.para "y"]) := by decide

/-- C7 amended: pass boundaries do not affect the final ordering.  For
a.docx, b.docx, c.docx whose bodies each contain a paragraph, listed in
any directory order, one pass over all three produces
`A ++ sep ++ B ++ sep ++ C` (lexicographic name order), and processing
a.docx in a first pass and the rest in a second pass over the full
listing ends with the identical artifact. -/
theorem pass_boundary_independent_ordering (as bs cs : List Block)
    (ha : hasParagraph as = true) (hb : hasParagraph bs = true)
    (hc : hasParagraph cs = true) :
    (merge_docx_files allSavesOK emptyState
        [⟨"c.docx", some cs⟩, ⟨"a.docx", some as⟩, ⟨"b.docx", some bs⟩]).1.artifact
      = some (as ++ (Block.sep :: (bs ++ (Block.sep :: cs)))) ∧
    (merge_docx_files allSavesOK
        (merge_docx_files allSavesOK emptyState [⟨"a.docx", some as⟩]).1
        [⟨"c.docx", some cs⟩, ⟨"a.docx", some as⟩, ⟨"b.docx", some bs⟩]).1.artifact
      = some (as ++ (Block.sep :: (bs ++ (Block.sep :: cs)))) := by
  constructor
  · have hgood : ∀ f ∈ ([⟨"c.docx", some cs⟩, ⟨"a.docx", some as⟩,
        ⟨"b.docx", some bs⟩] : List InputFile), goodInput f = true := by
      intro f hf
      simp only [List.mem_cons, List.not_mem_nil, or_false] at hf
      rcases hf with rfl | rfl | rfl
      · exact goodInput_mk "c.docx" cs rfl hc
      · exact goodInput_mk "a.docx" as rfl ha
      · exact goodInput_mk "b.docx" bs rfl hb
    rw [merge_good_artifact _ hgood (by simp)]
    rfl
  · have hpass1 : (merge_docx_files allSavesOK emptyState [⟨"a.docx", some as⟩]).1
        = ⟨some [["a.docx", "success"]], some as⟩ := rfl
    rw [hpass1]
    have hfin : (merge_docx_files allSavesOK ⟨some [["a.docx", "success"]], some as⟩
        [⟨"c.docx", some cs⟩, ⟨"a.docx", some as⟩, ⟨"b.docx", some bs⟩]).1.artifact
        = (runFiles allSavesOK [("a.docx", "success")]
            ⟨as, some as, some [["a.docx", "success"]], []⟩
            [⟨"b.docx", some bs⟩, ⟨"c.docx", some cs⟩]).disk := rfl
    obtain ⟨hmem, hdisk⟩ := runFiles_good [("a.docx", "success")]
      [⟨"b.docx", some bs⟩, ⟨"c.docx", some cs⟩]
      ⟨as, some as, some [["a.docx", "success"]], []⟩
      (by
        intro f hf
        simp only [List.mem_cons, List.not_mem_nil, or_false] at hf
        rcases hf with rfl | rfl
        · exact ⟨goodInput_mk "b.docx" bs rfl hb, rfl⟩
        · exact ⟨goodInput_mk "c.docx" cs rfl hc, rfl⟩)
      ha
    rw [hfin, hdisk, if_neg (by simp), hmem]
    simp

/-- Witness for C7 at concrete one-paragraph bodies. -/
theorem pass_boundary_independent_ordering_witness :
    hasParagraph [Block.para "A"] = true ∧
    (merge_docx_files allSavesOK emptyState
        [⟨"c.docx", some [Block.para "C"]⟩, ⟨"a.docx", some [Block.para "A"]⟩,
         ⟨"b.docx", some [Block.para "B"]⟩]).1.artifact
      = some ([Block.para "A"] ++ (Block.sep :: ([Block.para "B"]
          ++ (Block.sep :: [Block.para "C"])))) ∧
    (merge_docx_files allSavesOK
        (merge_docx_files allSavesOK emptyState [⟨"a.docx", some [Block.para "A"]⟩]).1
        [⟨"c.docx", some [Block.para "C"]⟩, ⟨"a.docx", some [Block.para "A"]⟩,
         ⟨"b.docx", some [Block.para "B"]⟩]).1.artifact
      = some ([Block.para "A"] ++ (Block.sep :: ([Block.para "B"]
          ++ (Block.sep :: [Block.para "C"])))) :=
  ⟨by decide,
   (pass_boundary_independent_ordering [Block.para "A"] [Block.para "B"]
      [Block.para "C"] (by decide) (by decide) (by decide)).1,
   (pass_boundary_independent_ordering [Block.para "A"] [Block.para "B"]
      [Block.para "C"] (by decide) (by decide) (by decide)).2⟩

/-! ## C8: a second pass over the same listing is a no-op -/

theorem load_eq_loadRows (r? : Option (List (List String))) :
    load_processed_files r? = loadRows (r?.getD []) := by
  cases r? <;> rfl

theorem stepFile_rows_extend (sOK : String → Bool) (p : List (String × String))
    (acc : PassState) (f : InputFile) :
    ∃ ext, (stepFile sOK p acc f).rows.getD [] = acc.rows.getD [] ++ ext := by
  simp only [stepFile]
  split
  · exact ⟨[], by simp⟩
  · split
    · exact ⟨[], by simp⟩
    · rcases hp : f.parse with _ | blocks
      · exact ⟨[[f.name, "error"]], by simp [update_processed_file]⟩
      · by_cases h3 : sOK f.name = true
        · exact ⟨[[f.name, "success"]], by simp [h3, update_processed_file]⟩
        · exact ⟨[[f.name, "error"]], by simp [h3, update_processed_file]⟩

theorem runFiles_rows_extend (sOK : String → Bool) (p : List (String × String)) :
    ∀ (l : List InputFile) (acc : PassState),
      ∃ ext, (runFiles sOK p acc l).rows.getD [] = acc.rows.getD [] ++ ext := by
  intro l
  induction l with
  | nil => intro acc; exact ⟨[], by simp [runFiles]⟩
  | cons f rest ih =>
      intro acc
      obtain ⟨ext, hext⟩ := ih (stepFile sOK p acc f)
      obtain ⟨ext0, hext0⟩ := stepFile_rows_extend sOK p acc f
      exact ⟨ext0 ++ ext, by
        show (runFiles sOK p (stepFile sOK p acc f) rest).rows.getD [] = _
        rw [hext, hext0, List.append_assoc]⟩

theorem mentioned_append (rows ext : List (List String)) (n : String)
    (h : (lookupName (loadRows rows) n).isSome = true) :
    (lookupName (loadRows (rows ++ ext)) n).isSome = true := by
  rw [lookup_loadRows] at h ⊢
  rw [lastBinding] at h ⊢
  rw [List.filterMap_append, List.getLast?_append]
  cases hx : (List.filterMap
      (fun row => match row with
        | [a, b] => if a = n then some b else none
        | _ => none) ext).getLast? with
  | none => simpa [hx, Option.or] using h
  | some v => simp [hx, Option.or]

theorem mentioned_self (rows : List (List String)) (n s : String) :
    (lookupName (loadRows (rows ++ [[n, s]])) n).isSome = true := by
  rw [lookup_loadRows, lastBinding, List.filterMap_append, List.getLast?_append]
  simp [Option.or]

theorem stepFile_rows_processed (sOK : String → Bool) (p : List (String × String))
    (acc : PassState) (f : InputFile)
    (h1 : endsWithB f.name.data ".docx".data = true)
    (h2 : lookupName p f.name = none) :
    (stepFile sOK p acc f).rows.getD [] = acc.rows.getD [] ++ [[f.name, "error"]]
      ∨ (stepFile sOK p acc f).rows.getD []
          = acc.rows.getD [] ++ [[f.name, "success"]] := by
  simp only [stepFile]
  rw [if_neg (by simp [h1]), if_neg (by simp [h2])]
  rcases hp : f.parse with _ | blocks
  · left; simp [update_processed_file]
  · by_cases h3 : sOK f.name = true
    · right; simp [h3, update_processed_file]
    · left; simp [h3, update_processed_file]

theorem runFiles_records_all (sOK : String → Bool) (p : List (String × String)) :
    ∀ (l : List InputFile) (acc : PassState),
      (∀ n, (lookupName p n).isSome = true →
          (lookupName (loadRows (acc.rows.getD [])) n).isSome = true) →
      ∀ f ∈ l, endsWithB f.name.data ".docx".data = true →
        (lookupName (loadRows ((runFiles sOK p acc l).rows.getD [])) f.name).isSome
          = true := by
  intro l
  induction l with
  | nil => intro acc _ f hf; simp at hf
  | cons g rest ih =>
      intro acc hcov f hf hdocx
      have hcov' : ∀ n, (lookupName p n).isSome = true →
          (lookupName (loadRows ((stepFile sOK p acc g).rows.getD [])) n).isSome
            = true := by
        intro n hn
        obtain ⟨ext0, hext0⟩ := stepFile_rows_extend sOK p acc g
        rw [hext0]
        exact mentioned_append _ _ _ (hcov n hn)
      rcases List.mem_cons.mp hf with rfl | hfrest
      · obtain ⟨ext, hext⟩ := runFiles_rows_extend sOK p rest (stepFile sOK p acc f)
        have hg : (lookupName (loadRows ((stepFile sOK p acc f).rows.getD []))
            f.name).isSome = true := by
          by_cases h2 : (lookupName p f.name).isSome = true
          · rw [stepFile_skip_ledgered sOK p acc f h2]
            exact hcov f.name h2
          · have hnone : lookupName p f.name = none := by
              cases hlk : lookupName p f.name with
              | none => rfl
              | some v => rw [hlk] at h2; simp at h2
            rcases stepFile_rows_processed sOK p acc f hdocx hnone with h | h <;>
              rw [h] <;> exact mentioned_self _ _ _
        show (lookupName (loadRows
            ((runFiles sOK p (stepFile sOK p acc f) rest).rows.getD []))
          f.name).isSome = true
        rw [hext]
        exact mentioned_append _ _ _ hg
      · exact ih (stepFile sOK p acc g) hcov' f hfrest hdocx

theorem runFiles_skip_all (sOK : String → Bool) (p : List (String × String)) :
    ∀ (l : List InputFile) (acc : PassState),
      (∀ f ∈ l, endsWithB f.name.data ".docx".data = true →
          (lookupName p f.name).isSome = true) →
      runFiles sOK p acc l = acc := by
  intro l
  induction l with
  | nil => intro acc _; rfl
  | cons f rest ih =>
      intro acc h
      have hstep : stepFile sOK p acc f = acc := by
        by_cases h1 : endsWithB f.name.data ".docx".data = true
        · exact stepFile_skip_ledgered sOK p acc f (h f (List.mem_cons_self f rest) h1)
        · simp only [stepFile]
          rw [if_pos (by simp [h1])]
      show runFiles sOK p (stepFile sOK p acc f) rest = acc
      rw [hstep]
      exact ih acc (fun g hg => h g (List.mem_cons_of_mem f hg))

/-- C8: idempotent re-run.  After any pass, every `.docx` candidate of the
listing has a ledger entry, so running the same pass again changes
nothing: the second pass returns the first pass's ledger and artifact
unchanged, and its whole event trace is just the pass-start/pass-end log
pair. -/
theorem rerun_pass_idempotent (sOK : String → Bool) (st : MergeState)
    (dir : List InputFile) :
    merge_docx_files sOK (merge_docx_files sOK st dir).1 dir
      = ((merge_docx_files sOK st dir).1, [Event.passStart, Event.passEnd]) := by
  have hall : ∀ f ∈ sortFiles dir, endsWithB f.name.data ".docx".data = true →
      (lookupName (load_processed_files (merge_docx_files sOK st dir).1.ledger)
        f.name).isSome = true := by
    intro f hf hdocx
    have hled : (merge_docx_files sOK st dir).1.ledger
        = (runFiles sOK (load_processed_files st.ledger)
            ⟨st.artifact.getD [], st.artifact, st.ledger, []⟩ (sortFiles dir)).rows := rfl
    rw [hled, load_eq_loadRows]
    refine runFiles_records_all sOK (load_processed_files st.ledger) (sortFiles dir)
      ⟨st.artifact.getD [], st.artifact, st.ledger, []⟩ ?_ f hf hdocx
    intro n hn
    show (lookupName (loadRows (st.ledger.getD [])) n).isSome = true
    rw [← load_eq_loadRows]
    exact hn
  have hskip := runFiles_skip_all sOK
    (load_processed_files (merge_docx_files sOK st dir).1.ledger) (sortFiles dir)
    ⟨(merge_docx_files sOK st dir).1.artifact.getD [],
     (merge_docx_files sOK st dir).1.artifact,
     (merge_docx_files sOK st dir).1.ledger, []⟩ hall
  show (⟨(runFiles sOK (load_processed_files (merge_docx_files sOK st dir).1.ledger)
      ⟨(merge_docx_files sOK st dir).1.artifact.getD [],
       (merge_docx_files sOK st dir).1.artifact,
       (merge_docx_files sOK st dir).1.ledger, []⟩ (sortFiles dir)).rows,
     (runFiles sOK (load_processed_files (merge_docx_files sOK st dir).1.ledger)
      ⟨(merge_docx_files sOK st dir).1.artifact.getD [],
       (merge_docx_files sOK st dir).1.artifact,
       (merge_docx_files sOK st dir).1.ledger, []⟩ (sortFiles dir)).disk⟩,
    Event.passStart ::
      (runFiles sOK (load_processed_files (merge_docx_files sOK st dir).1.ledger)
        ⟨(merge_docx_files sOK st dir).1.artifact.getD [],
         (merge_docx_files sOK st dir).1.artifact,
         (merge_docx_files sOK st dir).1.ledger, []⟩ (sortFiles dir)).events
        ++ [Event.passEnd])
    = ((merge_docx_files sOK st dir).1, [Event.passStart, Event.passEnd])
  rw [hskip]
  rfl

end DocMerger
